/-
Verification of the terrablade protocol engine (shallow embedding).

Bytes are modelled as natural numbers (a faithful byte list has all
elements < 256); machine integers are Nat/Int with explicit reductions
modulo 2^w where the source wraps, and hypotheses where the source's
struct.pack would reject out-of-range values.  Fallible reads return
Option/Except.  Each definition is translated from the corresponding
function in src/ (file and symbol named in its doc comment).
-/
import Mathlib

namespace Terrablade

/-! ## Packet stream framer (src/main.py, PacketStream) -/

/-- One framed wire message at the framer's level of abstraction:
the declared length, the type byte and the raw payload bytes. -/
structure RawMessage where
  length : Nat
  msg_type : Nat
  payload : List Nat
  deriving Repr, DecidableEq

/-- `PacketStream._next_message` (src/main.py:386-403).  Reads the
little-endian u16 length `L` from the first two buffer bytes; with fewer
than 2 or fewer than `L` bytes buffered, yields nothing and leaves the
buffer unchanged.  Otherwise removes the first `L` bytes as the packet.
For a packet of at least 3 bytes the message carries `packet[2]` as its
type and `packet[3:]` as its payload (both when `TerrariaMessage.parse`
succeeds and in its exception fallback); for a shorter packet the
fallback yields type 0 and an empty payload. -/
def tryNext (buf : List Nat) : Option (RawMessage × List Nat) :=
  if buf.length < 2 then none
  else
    let L := buf.getD 0 0 + 256 * buf.getD 1 0
    if buf.length < L then none
    else
      let packet := buf.take L
      some ({ length := L
              msg_type := if packet.length < 3 then 0 else packet.getD 2 0
              payload := if packet.length < 3 then [] else packet.drop 3 },
            buf.drop L)

/-- Repeatedly call `tryNext` until it yields nothing (fuelled; the
caller supplies enough fuel, e.g. the buffer length). -/
def drain : Nat → List Nat → List RawMessage × List Nat
  | 0, buf => ([], buf)
  | fuel + 1, buf =>
    match tryNext buf with
    | none => ([], buf)
    | some (m, rest) =>
      let r := drain fuel rest
      (m :: r.1, r.2)

/-- Feed chunks one at a time (`PacketStream._feed` appends to the
buffer) and drain all complete messages after each chunk. -/
def feedDrain : List (List Nat) → List Nat → List RawMessage
  | [], _ => []
  | c :: cs, buf =>
    let buf' := buf ++ c
    let r := drain buf'.length buf'
    r.1 ++ feedDrain cs r.2

/-- Run the framer from an empty buffer over a list of read chunks. -/
def runFramer (chunks : List (List Nat)) : List RawMessage :=
  feedDrain chunks []

/-- `build_raw_packet` (src/main.py:82-84): u16 little-endian total
length (3 + payload size), one type byte, then the payload. -/
def build_raw_packet (msg_type : Nat) (payload : List Nat) : List Nat :=
  let length := 3 + payload.length
  [length % 256, length / 256, msg_type] ++ payload

/-- A well-formed frame: the total length fits the u16 length field and
the type fits one byte (otherwise `struct.pack` raises). -/
def wfFrame (f : Nat × List Nat) : Prop :=
  f.1 < 256 ∧ 3 + f.2.length < 65536

/-- The `RawMessage` a well-formed frame should decode back to. -/
def rawOf (f : Nat × List Nat) : RawMessage :=
  { length := 3 + f.2.length, msg_type := f.1, payload := f.2 }

/-- Concatenation of the wire encodings of a list of frames. -/
def concatFrames (fs : List (Nat × List Nat)) : List Nat :=
  (fs.map fun f => build_raw_packet f.1 f.2).flatten

theorem build_raw_packet_length (t : Nat) (p : List Nat) :
    (build_raw_packet t p).length = 3 + p.length := by
  simp [build_raw_packet]
  omega

theorem build_raw_packet_cons (t : Nat) (p : List Nat) (rest : List Nat) :
    build_raw_packet t p ++ rest
      = (3 + p.length) % 256 :: ((3 + p.length) / 256 :: (t :: (p ++ rest))) := by
  simp [build_raw_packet]

theorem tryNext_frame (t : Nat) (p : List Nat) (rest : List Nat) :
    tryNext (build_raw_packet t p ++ rest) = some (rawOf (t, p), rest) := by
  rw [build_raw_packet_cons]
  simp only [tryNext, List.getD_cons_zero, List.getD_cons_succ, List.length_cons]
  rw [Nat.mod_add_div]
  rw [if_neg (by omega), if_neg (by simp; omega)]
  have h3 : 3 + p.length = p.length + 1 + 1 + 1 := by omega
  rw [h3]
  simp only [List.take_succ_cons, List.drop_succ_cons, List.length_cons]
  rw [List.take_left' rfl, List.drop_left' rfl]
  rw [if_neg (by simp), if_neg (by simp)]
  simp [rawOf]
  omega

theorem getD_take (l : List Nat) (n m d : Nat) (h : m < n) :
    (l.take n).getD m d = l.getD m d := by
  simp [List.getD, List.getElem?_take_of_lt h]

theorem tryNext_take_frame (t : Nat) (p : List Nat) (k : Nat)
    (hk : k < (build_raw_packet t p).length) :
    tryNext ((build_raw_packet t p).take k) = none := by
  rw [build_raw_packet_length] at hk
  by_cases h2 : k < 2
  · simp only [tryNext]
    rw [if_pos]
    simp only [List.length_take, build_raw_packet_length]
    omega
  · have hb : build_raw_packet t p
        = (3 + p.length) % 256 :: ((3 + p.length) / 256 :: (t :: p)) := by
      simp [build_raw_packet]
    rw [hb]
    simp only [tryNext]
    rw [getD_take _ _ _ _ (by omega : 0 < k), getD_take _ _ _ _ (by omega : 1 < k)]
    simp only [List.getD_cons_zero, List.getD_cons_succ]
    rw [Nat.mod_add_div]
    rw [if_neg (by simp [List.length_take]; omega),
      if_pos (by simp [List.length_take]; omega)]

theorem take_append_of_le (n : Nat) (P Q : List Nat) (h : n ≤ P.length) :
    (P ++ Q).take n = P.take n := by
  conv_lhs => rw [← List.take_append_drop n P, List.append_assoc]
  exact List.take_left' (by simp [List.length_take]; omega)

theorem split_of_append_eq (P Q A B : List Nat) (h : P ++ Q = A ++ B)
    (hl : A.length ≤ P.length) :
    P = A ++ P.drop A.length ∧ P.drop A.length ++ Q = B := by
  have h1 : P.take A.length = A := by
    have h2 := congrArg (List.take A.length) h
    rw [take_append_of_le _ _ _ hl, List.take_left] at h2
    exact h2
  have hfirst : P = A ++ P.drop A.length := by
    conv_lhs => rw [← List.take_append_drop A.length P]
    rw [h1]
  refine ⟨hfirst, ?_⟩
  have h3 : A ++ (P.drop A.length ++ Q) = A ++ B := by
    rw [← List.append_assoc, ← hfirst, h]
  exact List.append_cancel_left h3

theorem concatFrames_cons (f : Nat × List Nat) (fs : List (Nat × List Nat)) :
    concatFrames (f :: fs) = build_raw_packet f.1 f.2 ++ concatFrames fs := by
  simp [concatFrames]

theorem concatFrames_len (fs : List (Nat × List Nat)) :
    fs.length ≤ (concatFrames fs).length := by
  induction fs with
  | nil => simp [concatFrames]
  | cons f fs ih =>
    rw [concatFrames_cons]
    simp only [List.length_append, List.length_cons, build_raw_packet_length]
    omega

theorem drain_spec (fs : List (Nat × List Nat)) (r : List Nat) (fuel : Nat)
    (hr : tryNext r = none) (hfuel : fs.length ≤ fuel) :
    drain fuel (concatFrames fs ++ r) = (fs.map rawOf, r) := by
  induction fs generalizing fuel with
  | nil =>
    simp only [concatFrames, List.map_nil, List.flatten_nil, List.nil_append]
    cases fuel with
    | zero => simp [drain]
    | succ n => simp [drain, hr]
  | cons f fs ih =>
    cases fuel with
    | zero => simp at hfuel
    | succ n =>
      rw [concatFrames_cons, List.append_assoc]
      simp only [drain]
      rw [tryNext_frame]
      simp only [List.length_cons] at hfuel
      simp [ih n (by omega), rawOf]

theorem split_prefix (fs : List (Nat × List Nat)) (P Q : List Nat)
    (h : P ++ Q = concatFrames fs) :
    ∃ fsa fsb r, fs = fsa ++ fsb ∧ P = concatFrames fsa ++ r ∧ tryNext r = none ∧
      r ++ Q = concatFrames fsb := by
  induction fs generalizing P Q with
  | nil =>
    have hP : P = [] ∧ Q = [] := by
      have h' : P ++ Q = [] := by simpa [concatFrames] using h
      exact List.append_eq_nil.mp h'
    exact ⟨[], [], [], by simp, by simp [concatFrames, hP.1], by decide,
      by simp [concatFrames, hP.1, hP.2]⟩
  | cons f fs ih =>
    by_cases hl : (build_raw_packet f.1 f.2).length ≤ P.length
    · rw [concatFrames_cons] at h
      obtain ⟨h1, h2⟩ := split_of_append_eq P Q _ _ h hl
      obtain ⟨fsa, fsb, r, hfs, hP, hr, hQ⟩ := ih _ _ h2
      refine ⟨f :: fsa, fsb, r, by simp [hfs], ?_, hr, hQ⟩
      rw [concatFrames_cons, h1, hP, List.append_assoc]
    · push_neg at hl
      refine ⟨[], f :: fs, P, by simp, by simp [concatFrames], ?_, h⟩
      have hPfr : P = (build_raw_packet f.1 f.2).take P.length := by
        have h2 := congrArg (List.take P.length) h
        rw [take_append_of_le _ _ _ (Nat.le_refl _), List.take_length,
          concatFrames_cons, take_append_of_le _ _ _ (Nat.le_of_lt hl)] at h2
        exact h2
      rw [hPfr]
      exact tryNext_take_frame _ _ _ (by omega)

theorem feedDrain_spec (chunks : List (List Nat)) (fs : List (Nat × List Nat))
    (r : List Nat) (hr : tryNext r = none)
    (hjoin : r ++ chunks.flatten = concatFrames fs) :
    feedDrain chunks r = fs.map rawOf := by
  induction chunks generalizing fs r with
  | nil =>
    cases fs with
    | nil => simp [feedDrain]
    | cons f fs =>
      exfalso
      simp only [List.flatten_nil, List.append_nil] at hjoin
      rw [hjoin, concatFrames_cons] at hr
      rw [tryNext_frame] at hr
      exact Option.noConfusion hr
  | cons c cs ih =>
    simp only [feedDrain]
    have h : (r ++ c) ++ cs.flatten = concatFrames fs := by
      rw [List.append_assoc]
      simpa [List.flatten_cons, List.append_assoc] using hjoin
    obtain ⟨fsa, fsb, r', hfs, hP, hr', hQ⟩ := split_prefix fs _ _ h
    have hd : drain (r ++ c).length (r ++ c) = (fsa.map rawOf, r') := by
      rw [hP]
      apply drain_spec _ _ _ hr'
    -- enough fuel: each frame occupies at least one byte
      have h1 := concatFrames_len fsa
      simp only [List.length_append]
      omega
    rw [hd, ih fsb r' hr' hQ, hfs]
    simp

/-- C2: feeding any chunking of a concatenation of well-formed frames
through the framer yields exactly the original frames, in order, with no
loss or duplication; in particular a strict prefix of a single frame
followed by its remainder yields exactly that one message. -/
theorem framing_round_trip
    (fs : List (Nat × List Nat)) (chunks : List (List Nat))
    (_hwf : ∀ f ∈ fs, wfFrame f)
    (hchunks : chunks.flatten = concatFrames fs) :
    runFramer chunks = fs.map rawOf
    ∧ ∀ t p k, wfFrame (t, p) → 0 < k → k < (build_raw_packet t p).length →
        runFramer [(build_raw_packet t p).take k, (build_raw_packet t p).drop k]
          = [rawOf (t, p)] := by
  constructor
  · exact feedDrain_spec chunks fs [] (by decide) (by simpa using hchunks)
  · intro t p k hw hk0 hk
    have h := feedDrain_spec
      [(build_raw_packet t p).take k, (build_raw_packet t p).drop k]
      [(t, p)] [] (by decide) (by simp [concatFrames])
    simpa using h

/-- C2 witness: two frames, concatenated and fed one byte at a time. -/
theorem framing_round_trip_witness :
    runFramer ((concatFrames [(7, [1, 2]), (9, [])]).map fun b => [b])
      = [rawOf (7, [1, 2]), rawOf (9, [])]
    ∧ runFramer [(build_raw_packet 7 [1, 2]).take 4, (build_raw_packet 7 [1, 2]).drop 4]
      = [rawOf (7, [1, 2])] := by
  have h := framing_round_trip [(7, [1, 2]), (9, [])]
    ((concatFrames [(7, [1, 2]), (9, [])]).map fun b => [b])
    (by intro f hf; simp [wfFrame] at hf ⊢; rcases hf with h | h <;> simp [h])
    (by decide)
  exact ⟨h.1, h.2 7 [1, 2] 4 (by simp [wfFrame]) (by decide) (by decide)⟩

/-- C1 (amended): with fewer than 2 buffered bytes, or fewer than `L`
bytes where `L` is the little-endian u16 in the first two bytes,
`try_next` yields nothing and leaves the buffer unchanged.  Otherwise it
removes exactly the first `L` bytes; when `L ≥ 3` the message carries
byte 2 of those bytes as its type and bytes `3..L` as its payload, while
a degenerate frame declaring `L < 3` yields the fallback message with
type 0 and an empty payload. -/
theorem tryNext_cases (buf : List Nat) :
    (buf.length < 2 → tryNext buf = none) ∧
    (2 ≤ buf.length →
      (buf.length < buf.getD 0 0 + 256 * buf.getD 1 0 → tryNext buf = none) ∧
      (buf.getD 0 0 + 256 * buf.getD 1 0 ≤ buf.length →
        3 ≤ buf.getD 0 0 + 256 * buf.getD 1 0 →
        tryNext buf = some
          ({ length := buf.getD 0 0 + 256 * buf.getD 1 0,
             msg_type := buf.getD 2 0,
             payload := (buf.take (buf.getD 0 0 + 256 * buf.getD 1 0)).drop 3 },
           buf.drop (buf.getD 0 0 + 256 * buf.getD 1 0))) ∧
      (buf.getD 0 0 + 256 * buf.getD 1 0 ≤ buf.length →
        buf.getD 0 0 + 256 * buf.getD 1 0 < 3 →
        tryNext buf = some
          ({ length := buf.getD 0 0 + 256 * buf.getD 1 0, msg_type := 0,
             payload := [] },
           buf.drop (buf.getD 0 0 + 256 * buf.getD 1 0)))) := by
  refine ⟨fun h => ?_, fun h2 => ⟨fun hlt => ?_, fun hle h3 => ?_, fun hle h3 => ?_⟩⟩
  · simp only [tryNext]
    rw [if_pos h]
  · simp only [tryNext]
    rw [if_neg (by omega), if_pos hlt]
  · simp only [tryNext, List.getD_eq_getElem?_getD] at hle h3 ⊢
    rw [if_neg (by omega), if_neg (by omega),
      if_neg (by simp [List.length_take]; omega),
      if_neg (by simp [List.length_take]; omega),
      List.getElem?_take_of_lt (by omega)]
  · simp only [tryNext, List.getD_eq_getElem?_getD] at hle h3 ⊢
    rw [if_neg (by omega), if_neg (by omega),
      if_pos (by simp [List.length_take]; omega),
      if_pos (by simp [List.length_take]; omega)]

/-- C1 witness: the amended theorem applied to a complete 4-byte frame,
to an incomplete buffer and to a short buffer. -/
theorem tryNext_cases_witness :
    tryNext [4, 0, 9, 55] = some
      ({ length := 4, msg_type := 9, payload := [55] }, [])
    ∧ tryNext [9, 0, 1] = none
    ∧ tryNext [5] = none := by
  refine ⟨?_, ?_, ?_⟩
  · have h := ((tryNext_cases [4, 0, 9, 55]).2 (by decide)).2.1 (by decide) (by decide)
    simpa using h
  · exact ((tryNext_cases [9, 0, 1]).2 (by decide)).1 (by decide)
  · exact (tryNext_cases [5]).1 (by decide)

/-- C1 counterexample: a frame declaring length 2 is removed and turned
into a message although the two removed bytes have no byte index 2 — the
claimed `msg_type = byte[2]` cannot hold, the code substitutes type 0. -/
theorem tryNext_short_frame_cex :
    tryNext [2, 0, 7] = some ({ length := 2, msg_type := 0, payload := [] }, [7])
    ∧ (([2, 0, 7] : List Nat).take 2)[2]? = none := by decide

/-- C3 (amended): every message the framer produces has `length` equal
to exactly the number of bytes removed from the buffer (the 2-byte
length field included); the bound `length ≥ 2` however only holds when
the frame's declared length field is itself ≥ 2 — degenerate frames
declaring 0 or 1 yield messages with that smaller length. -/
theorem rawMessage_length_eq_consumed (buf : List Nat) (m : RawMessage)
    (rest : List Nat) (h : tryNext buf = some (m, rest)) :
    m.length = buf.length - rest.length ∧ rest = buf.drop m.length
    ∧ (2 ≤ buf.getD 0 0 + 256 * buf.getD 1 0 → 2 ≤ m.length) := by
  simp only [tryNext, List.getD_eq_getElem?_getD] at h ⊢
  split_ifs at h with h1 h2 h4
  all_goals
    have h' := Option.some.inj h
    have hm := congrArg (fun x => (x : RawMessage × List Nat).1.length) h'
    have hrest := congrArg (fun x => (x : RawMessage × List Nat).2) h'
    simp only at hm hrest
    refine ⟨?_, ?_, fun hb => by omega⟩
    · rw [← hrest, List.length_drop, ← hm]
      omega
    · rw [← hrest, ← hm]

/-- C3 witness: a complete 4-byte frame; the message length 4 equals the
bytes removed and is ≥ 2. -/
theorem rawMessage_length_eq_consumed_witness :
    (4 : Nat) = ([4, 0, 9, 55] : List Nat).length - ([] : List Nat).length
    ∧ ([] : List Nat) = ([4, 0, 9, 55] : List Nat).drop 4
    ∧ 2 ≤ 4 := by
  have h := rawMessage_length_eq_consumed [4, 0, 9, 55]
    { length := 4, msg_type := 9, payload := [55] } [] (by decide)
  exact ⟨h.1, h.2.1, h.2.2 (by decide)⟩

/-- C3 counterexample: a buffer starting with a declared length of 0
produces a message of length 0 (< 2), removing 0 bytes. -/
theorem rawMessage_zero_length_cex :
    tryNext [0, 0] = some ({ length := 0, msg_type := 0, payload := [] }, [0, 0])
    ∧ ¬ 2 ≤ (({ length := 0, msg_type := 0, payload := [] } : RawMessage)).length := by
  decide

/-! ## 7-bit packed variable-length integers
(src/main.py `write_7bit_encoded_int` / `read_7bit_encoded_int`;
src/dumper.py `read_7bit_int` is byte-for-byte the same reader) -/

/-- `write_7bit_encoded_int` (src/main.py:87-94): .NET BinaryWriter
7-bit encoding — while `n ≥ 0x80` emit `(n & 0x7F) | 0x80` and shift
right by 7; finally emit `n & 0x7F`. -/
def write_7bit_encoded_int (n : Nat) : List Nat :=
  if 0x80 ≤ n then ((n &&& 0x7F) ||| 0x80) :: write_7bit_encoded_int (n >>> 7)
  else [n &&& 0x7F]
termination_by n
decreasing_by
  simp only [Nat.shiftRight_eq_div_pow]
  omega

/-- Failure modes of the 7-bit reader: end of stream (`EOFError`) or the
continuation-bound guard (`ValueError("7-bit int too large")`). -/
inductive ReadErr where
  | eof
  | tooLarge
  deriving Repr, DecidableEq

/-- Loop body of `read_7bit_encoded_int` (src/main.py:102-115), with the
accumulated `result` and `shift` state made explicit.  On success it
returns the decoded value and the unconsumed remainder of the stream. -/
def read7Aux : List Nat → Nat → Nat → Except ReadErr (Nat × List Nat)
  | [], _, _ => .error .eof
  | b :: rest, result, shift =>
    let result' := result ||| ((b &&& 0x7F) <<< shift)
    if b &&& 0x80 = 0 then .ok (result', rest)
    else if 35 < shift + 7 then .error .tooLarge
    else read7Aux rest result' (shift + 7)

/-- `read_7bit_encoded_int` (src/main.py:102-115). -/
def read_7bit_encoded_int (l : List Nat) : Except ReadErr (Nat × List Nat) :=
  read7Aux l 0 0

/-- Little-endian 7-bit accumulation of a byte list (the value the
reader computes over the bytes it consumes). -/
def accum7 : List Nat → Nat
  | [] => 0
  | b :: rest => (b &&& 0x7F) ||| (accum7 rest <<< 7)

theorem lor_shift_add (a b s : Nat) (h : a < 2 ^ s) :
    a ||| (b <<< s) = a + b * 2 ^ s := by
  rw [Nat.shiftLeft_eq, Nat.lor_comm, Nat.mul_comm b, ← Nat.mul_add_lt_is_or h]
  omega

theorem shiftLeft_lor (x y s : Nat) : (x ||| y) <<< s = (x <<< s) ||| (y <<< s) := by
  apply Nat.eq_of_testBit_eq
  intro i
  simp only [Nat.testBit_shiftLeft, Nat.testBit_or]
  cases Nat.decLe s i with
  | isTrue h => simp [h]
  | isFalse h => simp [h]

theorem and127 (b : Nat) : b &&& 127 = b % 128 := by
  have h : (127 : Nat) = 2 ^ 7 - 1 := by norm_num
  rw [h, Nat.and_pow_two_sub_one_eq_mod]

theorem and128_zero_iff (b : Nat) : b &&& 128 = 0 ↔ b / 128 % 2 = 0 := by
  have h : (128 : Nat) = 2 ^ 7 := by norm_num
  rw [h, Nat.and_two_pow, Nat.testBit_to_div_mod]
  rcases Nat.mod_two_eq_zero_or_one (b / 2 ^ 7) with h0 | h1
  · simp [h0]
  · simp [h1]

theorem read7_write7_aux (n : Nat) : ∀ j acc rest, j ≤ 5 → n < 2 ^ (7 * (6 - j)) →
    acc < 2 ^ (7 * j) →
    read7Aux (write_7bit_encoded_int n ++ rest) acc (7 * j)
      = .ok (acc + n * 2 ^ (7 * j), rest) := by
  induction n using Nat.strong_induction_on with
  | _ n ih =>
    intro j acc rest hj hn hacc
    rw [write_7bit_encoded_int]
    by_cases h128 : 0x80 ≤ n
    · rw [if_pos h128]
      have hc : (n &&& 0x7F) ||| 0x80 = n % 128 + 128 := by
        rw [show (0x7F : Nat) = 127 from rfl, and127]
        have h := lor_shift_add (n % 128) 1 7 (by omega : n % 128 < 2 ^ 7)
        simpa using h
      rw [hc]
      simp only [List.cons_append, read7Aux]
      have h1 : (n % 128 + 128) &&& 0x7F = n % 128 := by
        rw [show (0x7F : Nat) = 127 from rfl, and127]
        omega
      have h2 : ¬ ((n % 128 + 128) &&& 0x80 = 0) := by
        rw [show (0x80 : Nat) = 128 from rfl, and128_zero_iff]
        omega
      have hj4 : j ≤ 4 := by
        by_contra hj5
        have hj' : j = 5 := by omega
        rw [hj'] at hn
        norm_num at hn
        omega
      rw [h1, if_neg h2, if_neg (by omega : ¬ 35 < 7 * j + 7)]
      rw [lor_shift_add _ _ _ hacc]
      have hsh : 7 * j + 7 = 7 * (j + 1) := by ring
      have hdiv : n >>> 7 = n / 128 := by
        simp [Nat.shiftRight_eq_div_pow]
      rw [hsh, hdiv]
      have hpow : (2 : Nat) ^ (7 * (j + 1)) = 2 ^ (7 * j) * 128 := by
        rw [show 7 * (j + 1) = 7 * j + 7 by ring, pow_add]
        norm_num
      have hn' : n / 128 < 2 ^ (7 * (6 - (j + 1))) := by
        have e : 7 * (6 - j) = 7 * (5 - j) + 7 := by omega
        rw [e, pow_add] at hn
        rw [show 6 - (j + 1) = 5 - j by omega]
        refine (Nat.div_lt_iff_lt_mul (by norm_num)).mpr ?_
        calc n < 2 ^ (7 * (5 - j)) * 2 ^ 7 := hn
          _ = 2 ^ (7 * (5 - j)) * 128 := by norm_num
      have hacc' : acc + n % 128 * 2 ^ (7 * j) < 2 ^ (7 * (j + 1)) := by
        calc acc + n % 128 * 2 ^ (7 * j)
            < 2 ^ (7 * j) + n % 128 * 2 ^ (7 * j) := Nat.add_lt_add_right hacc _
          _ = (1 + n % 128) * 2 ^ (7 * j) := by ring
          _ ≤ 128 * 2 ^ (7 * j) := Nat.mul_le_mul_right _ (by omega)
          _ = 2 ^ (7 * (j + 1)) := by rw [hpow]; ring
      simp only [List.append_eq]
      rw [ih (n / 128) (by omega) (j + 1) _ rest (by omega) hn' hacc']
      have hsplit : n % 128 + 128 * (n / 128) = n := Nat.mod_add_div n 128
      have hval : acc + n % 128 * 2 ^ (7 * j) + n / 128 * 2 ^ (7 * (j + 1))
          = acc + n * 2 ^ (7 * j) := by
        rw [hpow]
        calc acc + n % 128 * 2 ^ (7 * j) + n / 128 * (2 ^ (7 * j) * 128)
            = acc + (n % 128 + 128 * (n / 128)) * 2 ^ (7 * j) := by ring
          _ = acc + n * 2 ^ (7 * j) := by rw [hsplit]
      rw [hval]
    · rw [if_neg h128]
      simp only [List.cons_append, List.nil_append, read7Aux]
      rw [show (0x7F : Nat) = 127 from rfl, and127, Nat.mod_eq_of_lt (by omega),
        and127, Nat.mod_eq_of_lt (by omega)]
      rw [if_pos (by rw [show (0x80 : Nat) = 128 from rfl, and128_zero_iff]; omega)]
      rw [lor_shift_add _ _ _ hacc]
      simp [List.append_eq]

/-- C10: the 7-bit writer/reader are inverse — for every `n < 2^42`,
decoding the encoding of `n` (followed by arbitrary trailing bytes)
returns exactly `n` and consumes exactly the encoded bytes. -/
theorem write_read_7bit_round_trip (n : Nat) (rest : List Nat) (h : n < 2 ^ 42) :
    read_7bit_encoded_int (write_7bit_encoded_int n ++ rest) = .ok (n, rest) := by
  have haux := read7_write7_aux n 0 0 rest (by omega) (by simpa using h) (by simp)
  simpa [read_7bit_encoded_int] using haux

/-- C10 witness: a concrete two-byte encoding round-trips. -/
theorem write_read_7bit_round_trip_witness :
    read_7bit_encoded_int (write_7bit_encoded_int 300 ++ [9]) = .ok (300, [9]) :=
  write_read_7bit_round_trip 300 [9] (by norm_num)

theorem read7Aux_cases (l : List Nat) : ∀ j acc, j ≤ 5 →
    (6 - j ≤ (l.takeWhile fun b => b &&& 0x80 != 0).length →
      read7Aux l acc (7 * j) = .error .tooLarge) ∧
    ((l.takeWhile fun b => b &&& 0x80 != 0).length < 6 - j →
      (l.takeWhile fun b => b &&& 0x80 != 0).length = l.length →
      read7Aux l acc (7 * j) = .error .eof) ∧
    ((l.takeWhile fun b => b &&& 0x80 != 0).length < 6 - j →
      (l.takeWhile fun b => b &&& 0x80 != 0).length < l.length →
      read7Aux l acc (7 * j)
        = .ok (acc |||
            accum7 (l.take ((l.takeWhile fun b => b &&& 0x80 != 0).length + 1))
              <<< (7 * j),
            l.drop ((l.takeWhile fun b => b &&& 0x80 != 0).length + 1))) := by
  induction l with
  | nil =>
    intro j acc hj
    refine ⟨fun h => ?_, fun _ _ => rfl, fun _ h => ?_⟩
    · exfalso
      simp only [List.takeWhile_nil, List.length_nil] at h
      omega
    · exfalso
      simp only [List.takeWhile_nil, List.length_nil] at h
      omega
  | cons b r ih =>
    intro j acc hj
    by_cases hb : b &&& 0x80 = 0
    · have htw : (b :: r).takeWhile (fun b => b &&& 0x80 != 0) = [] := by
        simp [List.takeWhile, hb]
      rw [htw]
      refine ⟨fun h => ?_, fun _ h => ?_, fun _ _ => ?_⟩
      · exfalso
        simp only [List.length_nil] at h
        omega
      · exfalso
        simp only [List.length_nil, List.length_cons] at h
        omega
      · simp only [read7Aux, if_pos hb, List.length_nil, Nat.zero_add,
          List.take_succ_cons, List.take_zero, List.drop_succ_cons,
          List.drop_zero, accum7]
        rw [Nat.zero_shiftLeft, Nat.or_zero]
    · have hb' : (b &&& 0x80 != 0) = true := by simpa using hb
      have htw : (b :: r).takeWhile (fun b => b &&& 0x80 != 0)
          = b :: r.takeWhile (fun b => b &&& 0x80 != 0) := by
        simp [List.takeWhile, hb']
      rw [htw]
      simp only [List.length_cons]
      by_cases hj5 : j = 5
      · refine ⟨fun _ => ?_, fun h _ => absurd h (by omega), fun h _ => absurd h (by omega)⟩
        simp only [read7Aux, if_neg hb, hj5]
        norm_num
      · have hrec : read7Aux (b :: r) acc (7 * j)
            = read7Aux r (acc ||| ((b &&& 0x7F) <<< (7 * j))) (7 * (j + 1)) := by
          simp only [read7Aux, if_neg hb]
          rw [if_neg (by omega), show 7 * j + 7 = 7 * (j + 1) by ring]
        obtain ⟨ihA, ihB, ihC⟩ := ih (j + 1) (acc ||| ((b &&& 0x7F) <<< (7 * j)))
          (by omega)
        refine ⟨fun h => ?_, fun h h2 => ?_, fun h h2 => ?_⟩
        · rw [hrec]
          exact ihA (by omega)
        · rw [hrec]
          exact ihB (by omega) (by omega)
        · rw [hrec, ihC (by omega) (by omega)]
          simp only [List.take_succ_cons, List.drop_succ_cons, accum7]
          rw [shiftLeft_lor, ← Nat.lor_assoc, ← Nat.shiftLeft_add,
            show 7 + 7 * j = 7 * (j + 1) by ring]


/-- C7 (amended): let `k` be the number of leading continuation bytes
(MSB set).  The reader fails with the size-limit error exactly when the
first six bytes are all continuation bytes (more than 5 continuations
before any terminator); when the whole input is fewer than six
continuation bytes and no terminator, it fails with EOF instead of
returning; otherwise it returns the little-endian 7-bit accumulation of
the `k+1` bytes read and leaves the remainder unconsumed. -/
theorem read_7bit_cases (l : List Nat) :
    (6 ≤ (l.takeWhile fun b => b &&& 0x80 != 0).length →
      read_7bit_encoded_int l = .error .tooLarge) ∧
    ((l.takeWhile fun b => b &&& 0x80 != 0).length < 6 →
      (l.takeWhile fun b => b &&& 0x80 != 0).length = l.length →
      read_7bit_encoded_int l = .error .eof) ∧
    ((l.takeWhile fun b => b &&& 0x80 != 0).length < 6 →
      (l.takeWhile fun b => b &&& 0x80 != 0).length < l.length →
      read_7bit_encoded_int l
        = .ok (accum7 (l.take ((l.takeWhile fun b => b &&& 0x80 != 0).length + 1)),
            l.drop ((l.takeWhile fun b => b &&& 0x80 != 0).length + 1))) := by
  obtain ⟨hA, hB, hC⟩ := read7Aux_cases l 0 0 (by omega)
  refine ⟨fun h => ?_, fun h h2 => ?_, fun h h2 => ?_⟩
  · simpa [read_7bit_encoded_int] using hA (by omega)
  · simpa [read_7bit_encoded_int] using hB (by omega) h2
  · have hc := hC (by omega) h2
    simpa [read_7bit_encoded_int, Nat.shiftLeft_zero] using hc

/-- C7 witness: the amended theorem applied to a terminated two-byte
encoding, to six continuation bytes, and to a truncated stream. -/
theorem read_7bit_cases_witness :
    read_7bit_encoded_int [0x81, 0x02] = .ok (257, [])
    ∧ read_7bit_encoded_int [0x80, 0x80, 0x80, 0x80, 0x80, 0x80] = .error .tooLarge
    ∧ read_7bit_encoded_int [0x80, 0x80] = .error .eof := by
  refine ⟨?_, ?_, ?_⟩
  · rw [(read_7bit_cases [0x81, 0x02]).2.2 (by decide) (by decide)]
    rfl
  · exact (read_7bit_cases [0x80, 0x80, 0x80, 0x80, 0x80, 0x80]).1 (by decide)
  · exact (read_7bit_cases [0x80, 0x80]).2.1 (by decide) (by decide)

/-- C7 counterexample: the input `[0x80]` contains a single continuation
byte — not more than five — yet the reader returns neither a value nor
the size-limit error: it fails with EOF, contradicting the claimed
"otherwise returns the accumulation". -/
theorem read_7bit_eof_cex :
    read_7bit_encoded_int [0x80] = .error .eof
    ∧ ¬ 6 ≤ (([0x80] : List Nat).takeWhile fun b => b &&& 0x80 != 0).length :=
  ⟨rfl, by decide⟩

/-! ## Tile section decoder (src/main.py `parse_tile_section`, 261-358)

The decoder is modelled on the already-decompressed byte stream (the
source first inflates the payload with zlib, falling back to raw
deflate; decompression itself is outside the shallow embedding, so
`data` below is the decompressed tile block). -/

/-- struct.unpack "<h": two's-complement signed 16-bit value. -/
def toI16 (u : Nat) : Int :=
  if u < 32768 then (u : Int) else (u : Int) - 65536

/-- struct.unpack "<i": two's-complement signed 32-bit value. -/
def toI32 (u : Nat) : Int :=
  if u < 2147483648 then (u : Int) else (u : Int) - 4294967296

/-- `ByteReader.read_byte`: one byte or EOF. -/
def readUInt8 : List Nat → Option (Nat × List Nat)
  | [] => none
  | b :: r => some (b, r)

/-- `ByteReader.read_uint16` (little-endian, unsigned). -/
def readUInt16 : List Nat → Option (Nat × List Nat)
  | b0 :: b1 :: r => some (b0 + 256 * b1, r)
  | _ => none

/-- `ByteReader.read_int16` (little-endian, signed). -/
def readInt16 : List Nat → Option (Int × List Nat)
  | b0 :: b1 :: r => some (toI16 (b0 + 256 * b1), r)
  | _ => none

/-- `ByteReader.read_int32` (little-endian, signed). -/
def readInt32 : List Nat → Option (Int × List Nat)
  | b0 :: b1 :: b2 :: b3 :: r =>
    some (toI32 (b0 + 256 * b1 + 65536 * b2 + 16777216 * b3), r)
  | _ => none

/-- Read-and-discard of `n` bytes (the source reads fields it never
keeps: frame coordinates, colors, wall ids, liquid amounts). -/
def skipBytes (n : Nat) (l : List Nat) : Option (List Nat) :=
  if n ≤ l.length then some (l.drop n) else none

/-- One decoded rectangular tile blob (§3 TileSection); `tiles` is the
coordinate→type map in insertion order (each cell is visited once, so
keys are distinct and the list represents the dict exactly). -/
structure TileSection where
  x_start : Int
  y_start : Int
  width : Int
  height : Int
  tiles : List ((Int × Int) × Nat)
  deriving Repr, DecidableEq

/-- Decoder state while scanning cells: the pending run length, the last
decoded cell's `(active, type)`, the accumulated tile map and the
remaining input bytes. -/
structure DecState where
  rle : Int
  last : Option (Bool × Option Nat)
  tiles : List ((Int × Int) × Nat)
  input : List Nat
  deriving Repr, DecidableEq

/-- Tile-cell header bytes (src/main.py 302-310): `b4` always; `b3` if
`b4 & 1`; `b2` if `b3 & 1`; one reserved byte, consumed and discarded,
if `b2 & 1`.  Only `b4` and `b2` are consulted later. -/
def cellHeader (r : List Nat) : Option (Nat × Nat × List Nat) := do
  let (b4, r1) ← readUInt8 r
  if b4 &&& 1 ≠ 0 then do
    let (b3, ra) ← readUInt8 r1
    if b3 &&& 1 ≠ 0 then do
      let (b2, rb) ← readUInt8 ra
      if b2 &&& 1 ≠ 0 then do
        let rc ← skipBytes 1 rb
        pure (b4, b2, rc)
      else pure (b4, b2, rb)
    else pure (b4, 0, ra)
  else pure (b4, 0, r1)

/-- Active flag and tile type (src/main.py 312-326): if `b4 & 2`, the
type is u16 when `b4 & 0x20` else u8; members of
`tile_frame_important` carry two extra i16 frame coordinates (4 bytes,
discarded); `b2 & 8` adds a discarded tile-color byte. -/
def cellType (b4 b2 : Nat) (tfi : List Nat) (r : List Nat) :
    Option (Bool × Option Nat × List Nat) :=
  if b4 &&& 2 ≠ 0 then do
    let (ty, ra) ← if b4 &&& 0x20 ≠ 0 then readUInt16 r else readUInt8 r
    let rb ← if ty ∈ tfi then skipBytes 4 ra else pure ra
    let rc ← if b2 &&& 8 ≠ 0 then skipBytes 1 rb else pure rb
    pure (true, some ty, rc)
  else pure (false, none, r)

/-- Wall bytes (src/main.py 328-331): wall id if `b4 & 4`, wall color
if additionally `b2 & 0x10`; both discarded. -/
def cellWall (b4 b2 : Nat) (r : List Nat) : Option (List Nat) :=
  if b4 &&& 4 ≠ 0 then do
    let ra ← skipBytes 1 r
    if b2 &&& 0x10 ≠ 0 then skipBytes 1 ra else pure ra
  else pure r

/-- Run-length field (src/main.py 340-346): `(b4 & 0xC0) >> 6` selects
none (0), a u8 count (1) or an i16 count (2 or 3). -/
def cellRle (b4 : Nat) (r : List Nat) : Option (Int × List Nat) :=
  if (b4 &&& 0xC0) >>> 6 = 1 then do
    let (v, ra) ← readUInt8 r
    pure ((v : Int), ra)
  else if (b4 &&& 0xC0) >>> 6 = 2 ∨ (b4 &&& 0xC0) >>> 6 = 3 then
    readInt16 r
  else pure ((0 : Int), r)

/-- Per-cell byte consumption of `parse_tile_section` (src/main.py
302-348), the stages above composed in the exact source order, plus the
liquid byte (`(b4 & 0x18) >> 3` nonzero) and the wall high byte
(`b2 & 0x40`), both discarded.  Returns `(active, type)`, the new run
length and the remaining bytes. -/
def decodeCell (r0 : List Nat) (tfi : List Nat) :
    Option ((Bool × Option Nat) × Int × List Nat) := do
  let (b4, b2, r2) ← cellHeader r0
  let (active, tile_type, r3) ← cellType b4 b2 tfi r2
  let r4 ← cellWall b4 b2 r3
  let r5 ← if (b4 &&& 0x18) >>> 3 ≠ 0 then skipBytes 1 r4 else pure r4
  let r6 ← if b2 &&& 0x40 ≠ 0 then skipBytes 1 r5 else pure r5
  let (rle, r7) ← cellRle b4 r6
  pure ((active, tile_type), rle, r7)

/-- The cell scan of `parse_tile_section` (src/main.py 294-350) over a
row-major coordinate list: a pending run length replays the last cell
without consuming input; otherwise one cell is decoded from the stream.
Active cells are recorded as `(x, y) → type`. -/
def decodeCells (tfi : List Nat) : List (Int × Int) → DecState → Option DecState
  | [], s => some s
  | (x, y) :: cs, s =>
    if s.rle ≠ 0 then
      decodeCells tfi cs
        { s with
          rle := s.rle - 1
          tiles :=
            match s.last with
            | some (true, some ty) => s.tiles ++ [((x, y), ty)]
            | _ => s.tiles }
    else do
      let (last, rle, rest) ← decodeCell s.input tfi
      decodeCells tfi cs
        { rle := rle
          last := some last
          tiles :=
            match last with
            | (true, some ty) => s.tiles ++ [((x, y), ty)]
            | _ => s.tiles
          input := rest }

/-- Row-major cell coordinates: `y` from `y_start` (outer), `x` from
`x_start` (inner); non-positive width/height yield no cells, matching
Python `range`. -/
def sectionCoords (x0 y0 w h : Int) : List (Int × Int) :=
  (List.range h.toNat).flatMap fun j =>
    (List.range w.toNat).map fun i => (x0 + (i : Int), y0 + (j : Int))

/-- `parse_tile_section` on the decompressed data: reads the
i32/i32/i16/i16 header; with an empty `tile_frame_important` set it
stops there with an empty tile map (degraded mode — the source performs
the same header reads in both branches), otherwise scans all cells. -/
def parse_tile_section (data : List Nat) (tile_frame_important : List Nat) :
    Option TileSection := do
  let (x_start, r1) ← readInt32 data
  let (y_start, r2) ← readInt32 r1
  let (width, r3) ← readInt16 r2
  let (height, r4) ← readInt16 r3
  if tile_frame_important.isEmpty then
    pure { x_start, y_start, width, height, tiles := [] }
  else do
    let s ← decodeCells tile_frame_important
      (sectionCoords x_start y_start width height)
      { rle := 0, last := none, tiles := [], input := r4 }
    pure { x_start, y_start, width, height, tiles := s.tiles }

/-- struct.pack "<h": two's-complement little-endian 16-bit encoding. -/
def i16le (v : Int) : List Nat :=
  [(v % 65536).toNat % 256, (v % 65536).toNat / 256]

/-- struct.pack "<i": two's-complement little-endian 32-bit encoding. -/
def i32le (v : Int) : List Nat :=
  [(v % 4294967296).toNat % 256, (v % 4294967296).toNat / 256 % 256,
   (v % 4294967296).toNat / 65536 % 256, (v % 4294967296).toNat / 16777216]

theorem readInt32_i32le (x : Int) (r : List Nat) (h1 : -2147483648 ≤ x)
    (h2 : x < 2147483648) :
    readInt32 (i32le x ++ r) = some (x, r) := by
  have hrec : (x % 4294967296).toNat % 256
      + 256 * ((x % 4294967296).toNat / 256 % 256)
      + 65536 * ((x % 4294967296).toNat / 65536 % 256)
      + 16777216 * ((x % 4294967296).toNat / 16777216)
      = (x % 4294967296).toNat := by omega
  have hval : toI32 ((x % 4294967296).toNat) = x := by
    rw [toI32]
    split_ifs <;> omega
  simp only [i32le, List.cons_append, List.nil_append, readInt32, hrec, hval]

theorem readInt16_i16le (x : Int) (r : List Nat) (h1 : -32768 ≤ x)
    (h2 : x < 32768) :
    readInt16 (i16le x ++ r) = some (x, r) := by
  have hrec : (x % 65536).toNat % 256 + 256 * ((x % 65536).toNat / 256)
      = (x % 65536).toNat := by omega
  have hval : toI16 ((x % 65536).toNat) = x := by
    rw [toI16]
    split_ifs <;> omega
  simp only [i16le, List.cons_append, List.nil_append, readInt16, hrec, hval]

/-- C6 (amended): the decompressed tile header is 12 bytes
(`i32 x_start`, `i32 y_start`, `i16 width`, `i16 height`), not 10.  For
every decompressed payload carrying those 12 header bytes, decoding with
an empty `tile_frame_important` set never fails and returns the header
values with an empty tile map, regardless of the bytes that follow; a
payload of only 10 bytes instead hits end-of-input (see the
counterexample). -/
theorem parse_tile_degraded (b0 b1 b2 b3 c0 c1 c2 c3 w0 w1 e0 e1 : Nat)
    (rest : List Nat) :
    parse_tile_section
        (b0 :: b1 :: b2 :: b3 :: c0 :: c1 :: c2 :: c3 :: w0 :: w1 :: e0 :: e1 :: rest)
        []
      = some { x_start := toI32 (b0 + 256 * b1 + 65536 * b2 + 16777216 * b3),
               y_start := toI32 (c0 + 256 * c1 + 65536 * c2 + 16777216 * c3),
               width := toI16 (w0 + 256 * w1),
               height := toI16 (e0 + 256 * e1),
               tiles := [] } := by
  simp [parse_tile_section, readInt32, readInt16]

/-- C6 counterexample: a 10-byte decompressed payload (the claimed
"10-byte header") makes the decoder hit end-of-input while reading the
height field — it raises instead of returning a section. -/
theorem parse_tile_ten_byte_cex :
    parse_tile_section (List.replicate 10 0) [] = none := by decide

/-- C5: while the run-length counter is nonzero the scanner consumes no
input: it decrements the counter and records `(x, y) → last.type`
exactly when the last decoded cell was active; concretely, a
decompressed payload with header `width = 3, height = 1` and a single
encoded cell (`active`, type 5, u8 type) followed by an RLE count of 2
decodes to the three-tile map
`{(x0, y0) : 5, (x0+1, y0) : 5, (x0+2, y0) : 5}`. -/
theorem tile_rle_replay (tfi : List Nat) :
    (∀ (x y : Int) (cs : List (Int × Int)) (s : DecState), s.rle ≠ 0 →
      decodeCells tfi ((x, y) :: cs) s
        = decodeCells tfi cs
            { s with
              rle := s.rle - 1
              tiles :=
                match s.last with
                | some (true, some ty) => s.tiles ++ [((x, y), ty)]
                | _ => s.tiles })
    ∧ ∀ x0 y0 : Int, -2147483648 ≤ x0 → x0 < 2147483648 →
        -2147483648 ≤ y0 → y0 < 2147483648 → 5 ∉ tfi → tfi ≠ [] →
        parse_tile_section (i32le x0 ++ i32le y0 ++ [3, 0, 1, 0, 0x42, 5, 2]) tfi
          = some { x_start := x0, y_start := y0, width := 3, height := 1,
                   tiles := [((x0, y0), 5), ((x0 + 1, y0), 5), ((x0 + 2, y0), 5)] } := by
  constructor
  · intro x y cs s h
    simp only [decodeCells]
    rw [if_pos h]
  · intro x0 y0 hx1 hx2 hy1 hy2 h5 hne
    have hempty : tfi.isEmpty = false := by
      cases tfi with
      | nil => exact absurd rfl hne
      | cons a l => rfl
    have hco : sectionCoords x0 y0 3 1 = [(x0, y0), (x0 + 1, y0), (x0 + 2, y0)] := by
      simp [sectionCoords, List.range_succ]
    simp only [parse_tile_section, Option.bind_eq_bind, List.append_assoc]
    rw [readInt32_i32le x0 _ hx1 hx2]
    simp only [Option.some_bind]
    rw [readInt32_i32le y0 _ hy1 hy2]
    simp only [Option.some_bind]
    rw [show readInt16 [3, 0, 1, 0, 0x42, 5, 2] = some (3, [1, 0, 0x42, 5, 2])
        from by decide]
    simp only [Option.some_bind]
    rw [show readInt16 [1, 0, 0x42, 5, 2] = some (1, [0x42, 5, 2]) from by decide]
    simp only [Option.some_bind, hempty, Bool.false_eq_true, if_false, hco]
    have hmem : (5 ∈ tfi) = False := by simp [h5]
    have hcell : decodeCell [0x42, 5, 2] tfi = some ((true, some 5), 2, []) := by
      have e1 : cellHeader [0x42, 5, 2] = some (0x42, 0, [5, 2]) := by decide
      have e2 : cellType 0x42 0 tfi [5, 2] = some (true, some 5, [2]) := by
        simp [cellType, readUInt8, hmem, (by decide : (0x42 &&& 0x20 : Nat) = 0)]
      have e3 : cellWall 0x42 0 [2] = some [2] := by decide
      have e4 : cellRle 0x42 [2] = some (2, []) := by decide
      simp [decodeCell, e1, e2, e3, e4,
        (by decide : ((0x42 &&& 0x18 : Nat)) >>> 3 = 0)]
    have hrun : decodeCells tfi [(x0, y0), (x0 + 1, y0), (x0 + 2, y0)]
        { rle := 0, last := none, tiles := [], input := [0x42, 5, 2] }
        = some { rle := 0, last := some (true, some 5),
                 tiles := [((x0, y0), 5), ((x0 + 1, y0), 5), ((x0 + 2, y0), 5)],
                 input := [] } := by
      rw [decodeCells.eq_def]
      dsimp only
      rw [if_neg (by decide)]
      rw [hcell]
      simp only [Option.bind_eq_bind, Option.some_bind]
      rw [decodeCells.eq_def]
      dsimp only
      rw [if_pos (by decide)]
      rw [decodeCells.eq_def]
      dsimp only
      rw [if_pos (by decide)]
      rw [decodeCells.eq_def]
      simp
    rw [hrun]
    simp

/-- C5 witness: the RLE step applied to a concrete nonzero-run state,
and the concrete three-tile decode at `x0 = 7, y0 = -2` with
`tile_frame_important = {1}`. -/
theorem tile_rle_replay_witness :
    decodeCells [1] [((0 : Int), (0 : Int))]
        { rle := 2, last := some (true, some 5), tiles := [], input := [] }
      = decodeCells [1] []
          { rle := 1, last := some (true, some 5), tiles := [((0, 0), 5)],
            input := [] }
    ∧ parse_tile_section (i32le 7 ++ i32le (-2) ++ [3, 0, 1, 0, 0x42, 5, 2]) [1]
      = some { x_start := 7, y_start := -2, width := 3, height := 1,
               tiles := [((7, -2), 5), ((8, -2), 5), ((9, -2), 5)] } := by
  constructor
  · have h := (tile_rle_replay [1]).1 0 0 []
      { rle := 2, last := some (true, some 5), tiles := [], input := [] }
      (by decide)
    simpa using h
  · have h := (tile_rle_replay [1]).2 7 (-2) (by norm_num) (by norm_num)
      (by norm_num) (by norm_num) (by decide) (by decide)
    simpa using h

/-! ## Versioned spawn-packet encoding (src/main.py `build_spawn_packet`,
693-721; `VersionSpec` from src/protocol/specs.py) -/

/-- The resolved version profile (src/protocol/specs.py `VersionSpec`),
restricted to the fields the protocol engine consumes.
`message_formats` is the per-family variant selector dict. -/
structure VersionSpec where
  version_string : String
  tile_frame_important : List Nat
  message_formats : List (String × String)
  deriving Repr, DecidableEq

/-- Python `dict.get(key, default)` over the selector dict. -/
def formatsGet (fmts : List (String × String)) (key dflt : String) : String :=
  match fmts.lookup key with
  | some v => v
  | none => dflt

/-- `build_spawn_packet` (src/main.py:693-721): under a `"v0"` selector
for `player_spawn`, the payload is slot (u8) + spawn x/y (i32 each);
under any other selector (the `"v1"` default) it is slot (u8) + spawn
x/y (i16) + respawn timer (i32) + pve/pvp death counts (i16) + team +
spawn context (u8 each). -/
def build_spawn_packet (profile : VersionSpec) (player_slot : Nat)
    (spawn_x spawn_y respawn_timer deaths_pve deaths_pvp : Int)
    (team spawn_context : Nat) : List Nat :=
  let fmt := formatsGet profile.message_formats "player_spawn" "v1"
  if fmt = "v0" then
    build_raw_packet 0x0C ([player_slot] ++ i32le spawn_x ++ i32le spawn_y)
  else
    build_raw_packet 0x0C
      ([player_slot] ++ i16le spawn_x ++ i16le spawn_y ++ i32le respawn_timer
        ++ i16le deaths_pve ++ i16le deaths_pvp ++ [team, spawn_context])

/-- C4 (amended): the v0 `player_spawn` payload is 9 bytes — slot plus
spawn x and y as i32 each — not 11; the v1 payload adds the respawn
timer, death counts, team and spawn-context fields for 15 bytes; and
which layout is produced is a deterministic function of the profile's
`player_spawn` selector alone. -/
theorem build_spawn_packet_layout (p : VersionSpec) (slot : Nat)
    (x y rt dpe dpv : Int) (team ctx : Nat) :
    (formatsGet p.message_formats "player_spawn" "v1" = "v0" →
      build_spawn_packet p slot x y rt dpe dpv team ctx
          = build_raw_packet 0x0C ([slot] ++ i32le x ++ i32le y)
        ∧ ((build_spawn_packet p slot x y rt dpe dpv team ctx).drop 3).length = 9)
    ∧ (formatsGet p.message_formats "player_spawn" "v1" ≠ "v0" →
      build_spawn_packet p slot x y rt dpe dpv team ctx
          = build_raw_packet 0x0C
              ([slot] ++ i16le x ++ i16le y ++ i32le rt ++ i16le dpe ++ i16le dpv
                ++ [team, ctx])
        ∧ ((build_spawn_packet p slot x y rt dpe dpv team ctx).drop 3).length = 15)
    ∧ (∀ q : VersionSpec,
        formatsGet q.message_formats "player_spawn" "v1"
            = formatsGet p.message_formats "player_spawn" "v1" →
        build_spawn_packet q slot x y rt dpe dpv team ctx
          = build_spawn_packet p slot x y rt dpe dpv team ctx) := by
  refine ⟨fun hv0 => ⟨?_, ?_⟩, fun hv1 => ⟨?_, ?_⟩, fun q hq => ?_⟩
  · simp [build_spawn_packet, hv0]
  · simp [build_spawn_packet, hv0, build_raw_packet, i32le]
  · simp [build_spawn_packet, hv1]
  · simp [build_spawn_packet, hv1, build_raw_packet, i16le, i32le]
  · rw [build_spawn_packet, build_spawn_packet, hq]

/-- C4 witness: the layout theorem applied to a v0 profile, a v1
profile, and two distinct profiles sharing the v0 selector. -/
theorem build_spawn_packet_layout_witness :
    ((build_spawn_packet ⟨"a", [], [("player_spawn", "v0")]⟩ 1 2 3 0 0 0 0 0).drop 3).length = 9
    ∧ ((build_spawn_packet ⟨"b", [], []⟩ 1 2 3 0 0 0 0 0).drop 3).length = 15
    ∧ build_spawn_packet ⟨"a", [], [("player_spawn", "v0")]⟩ 1 2 3 0 0 0 0 0
        = build_spawn_packet ⟨"b", [7], [("player_spawn", "v0")]⟩ 1 2 3 0 0 0 0 0 := by
  refine ⟨?_, ?_, ?_⟩
  · exact ((build_spawn_packet_layout ⟨"a", [], [("player_spawn", "v0")]⟩ 1 2 3 0 0 0 0 0).1
      (by decide)).2
  · exact ((build_spawn_packet_layout ⟨"b", [], []⟩ 1 2 3 0 0 0 0 0).2.1
      (by decide)).2
  · exact (build_spawn_packet_layout ⟨"b", [7], [("player_spawn", "v0")]⟩ 1 2 3 0 0 0 0 0).2.2
      ⟨"a", [], [("player_spawn", "v0")]⟩ (by decide)

/-- C4 counterexample: the v0 payload has 9 bytes, not 11 as claimed. -/
theorem build_spawn_v0_payload_cex :
    ((build_spawn_packet ⟨"", [], [("player_spawn", "v0")]⟩ 0 0 0 0 0 0 0 0).drop 3).length = 9
    ∧ ((build_spawn_packet ⟨"", [], [("player_spawn", "v0")]⟩ 0 0 0 0 0 0 0 0).drop 3).length
        ≠ 11 := by
  decide

/-! ## Unknown-type fallback (src/terraria_construct.py `TerrariaMessage`,
579-587, and src/main.py `PacketStream._next_message`, 386-403) -/

/-- The message type ids with a registered payload schema: the
`payload_structs` dict keys 0x01..0x42 plus 0x44, 0x52 and 0x93
(src/terraria_construct.py:60-569). -/
def registeredTypes : List Nat :=
  (List.range 0x43).drop 1 ++ [0x44, 0x52, 0x93]

/-- `TerrariaMessage.parse` restricted to the `Switch` default arm
(src/terraria_construct.py:579-587): for a type with no registered
schema the payload is `FixedSized(length - 3, GreedyBytes)` — the raw
payload bytes unchanged.  Packets shorter than their declared length,
degenerate declared lengths (< 3), and registered types (which dispatch
to per-type schemas not modelled here) yield `none`. -/
def terrariaParseDefault (packet : List Nat) : Option (Nat × List Nat) :=
  if packet.length < 3 then none
  else
    let L := packet.getD 0 0 + 256 * packet.getD 1 0
    if L < 3 then none
    else if packet.length < L then none
    else if packet.getD 2 0 ∈ registeredTypes then none
    else some (packet.getD 2 0, (packet.take L).drop 3)

/-- C8: a complete frame whose `msg_type` has no registered schema
decodes without raising to a fallback record carrying the type and the
original payload bytes unchanged, and the framer consumes exactly that
frame so the stream continues at the next one. -/
theorem unknown_type_fallback (t : Nat) (p rest : List Nat)
    (ht : t ∉ registeredTypes) (_ht256 : t < 256) (_hlen : 3 + p.length < 65536) :
    terrariaParseDefault (build_raw_packet t p) = some (t, p)
    ∧ tryNext (build_raw_packet t p ++ rest) = some (rawOf (t, p), rest) := by
  refine ⟨?_, tryNext_frame t p rest⟩
  have hb : build_raw_packet t p
      = (3 + p.length) % 256 :: ((3 + p.length) / 256 :: (t :: p)) := by
    simp [build_raw_packet]
  rw [hb]
  simp only [terrariaParseDefault, List.getD_cons_zero, List.getD_cons_succ,
    List.length_cons]
  rw [Nat.mod_add_div]
  rw [if_neg (by omega), if_neg (by omega), if_neg (by omega), if_neg (by simpa using ht)]
  have h3 : 3 + p.length = p.length + 1 + 1 + 1 := by omega
  rw [h3]
  simp only [List.take_succ_cons]
  rw [List.take_length]
  simp

/-- C8 witness: type 0x43 has no schema; its 2-byte payload comes back
unchanged and the following frame bytes are left in the buffer. -/
theorem unknown_type_fallback_witness :
    terrariaParseDefault (build_raw_packet 0x43 [10, 20]) = some (0x43, [10, 20])
    ∧ tryNext (build_raw_packet 0x43 [10, 20] ++ [9, 9])
        = some (rawOf (0x43, [10, 20]), [9, 9]) :=
  unknown_type_fallback 0x43 [10, 20] [9, 9] (by decide) (by decide) (by decide)

/-! ## Teleport tracker (src/main.py `TeleportTracker`, 514-532) -/

/-- Python dict assignment `d[k] = v`: update in place, or append a new
key at the end (insertion order preserved). -/
def assocSet (l : List (Int × Nat)) (k : Int) (v : Nat) : List (Int × Nat) :=
  match l with
  | [] => [(k, v)]
  | (a, b) :: rest => if a = k then (k, v) :: rest else (a, b) :: assocSet rest k v

/-- Python `del d[k]`. -/
def assocRemove (l : List (Int × Nat)) (k : Int) : List (Int × Nat) :=
  match l with
  | [] => []
  | (a, b) :: rest => if a = k then rest else (a, b) :: assocRemove rest k

/-- `TeleportTracker.sent` (src/main.py:518-521): increment
`pending[target]` from its current value (0 when absent) and report
whether it was 0 before. -/
def tt_sent (pending : List (Int × Nat)) (target : Int) : Bool × List (Int × Nat) :=
  let before := (pending.lookup target).getD 0
  (before == 0, assocSet pending target (before + 1))

/-- `TeleportTracker.ack` (src/main.py:523-529): decrement an existing
entry (clamped at 0, which on the naturals is truncated subtraction);
delete it and report `true` exactly when it reaches 0. -/
def tt_ack (pending : List (Int × Nat)) (target : Int) : Bool × List (Int × Nat) :=
  match pending.lookup target with
  | none => (false, pending)
  | some v =>
    if v - 1 = 0 then (true, assocRemove pending target)
    else (false, assocSet pending target (v - 1))

/-- A sequence of tracker calls. -/
inductive TTOp where
  | sent (t : Int)
  | ack (t : Int)
  deriving Repr, DecidableEq

/-- Run tracker calls from a given `pending` map, collecting the
returned booleans and the final map. -/
def ttRunFrom (pending : List (Int × Nat)) : List TTOp → List Bool × List (Int × Nat)
  | [] => ([], pending)
  | op :: ops =>
    let r := match op with
      | .sent t => tt_sent pending t
      | .ack t => tt_ack pending t
    let rec' := ttRunFrom r.2 ops
    (r.1 :: rec'.1, rec'.2)

/-- Run tracker calls from the freshly constructed (empty) tracker. -/
def ttRun (ops : List TTOp) : List Bool × List (Int × Nat) :=
  ttRunFrom [] ops

theorem lookup_mem (l : List (Int × Nat)) (k : Int) (v : Nat)
    (h : l.lookup k = some v) : (k, v) ∈ l := by
  induction l with
  | nil => simp [List.lookup] at h
  | cons a rest ih =>
    obtain ⟨a1, a2⟩ := a
    rw [List.lookup] at h
    by_cases hk : k == a1
    · rw [hk] at h
      have hv : a2 = v := by simpa using h
      have hk' : k = a1 := by simpa using hk
      subst hk'
      subst hv
      exact List.mem_cons_self _ _
    · have hk2 : (k == a1) = false := by simpa using hk
      rw [hk2] at h
      have h' : rest.lookup k = some v := by simpa using h
      exact List.mem_cons_of_mem _ (ih h')

theorem assocSet_mem (l : List (Int × Nat)) (k : Int) (v : Nat) :
    ∀ pr ∈ assocSet l k v, pr ∈ l ∨ pr = (k, v) := by
  induction l with
  | nil =>
    intro pr hpr
    simp [assocSet] at hpr
    simp [hpr]
  | cons a rest ih =>
    obtain ⟨a1, a2⟩ := a
    intro pr hpr
    rw [assocSet] at hpr
    by_cases ha : a1 = k
    · rw [if_pos ha] at hpr
      rcases List.mem_cons.mp hpr with h | h
      · exact Or.inr h
      · exact Or.inl (List.mem_cons_of_mem _ h)
    · rw [if_neg ha] at hpr
      rcases List.mem_cons.mp hpr with h | h
      · exact Or.inl (by simp [h])
      · rcases ih pr h with h' | h'
        · exact Or.inl (List.mem_cons_of_mem _ h')
        · exact Or.inr h'

theorem assocRemove_mem (l : List (Int × Nat)) (k : Int) :
    ∀ pr ∈ assocRemove l k, pr ∈ l := by
  induction l with
  | nil =>
    intro pr hpr
    simp [assocRemove] at hpr
  | cons a rest ih =>
    obtain ⟨a1, a2⟩ := a
    intro pr hpr
    rw [assocRemove] at hpr
    by_cases ha : a1 = k
    · rw [if_pos ha] at hpr
      exact List.mem_cons_of_mem _ hpr
    · rw [if_neg ha] at hpr
      rcases List.mem_cons.mp hpr with h | h
      · simp [h]
      · exact List.mem_cons_of_mem _ (ih pr h)

theorem tt_sent_pos (pending : List (Int × Nat)) (t : Int)
    (hpos : ∀ pr ∈ pending, 0 < pr.2) :
    ∀ pr ∈ (tt_sent pending t).2, 0 < pr.2 := by
  intro pr hpr
  rcases assocSet_mem pending t _ pr hpr with h | h
  · exact hpos pr h
  · simp [h]

theorem tt_ack_pos (pending : List (Int × Nat)) (t : Int)
    (hpos : ∀ pr ∈ pending, 0 < pr.2) :
    ∀ pr ∈ (tt_ack pending t).2, 0 < pr.2 := by
  intro pr hpr
  cases hl : pending.lookup t with
  | none =>
    have hack : tt_ack pending t = (false, pending) := by rw [tt_ack, hl]
    rw [hack] at hpr
    exact hpos pr hpr
  | some v =>
    have hack : tt_ack pending t
        = if v - 1 = 0 then (true, assocRemove pending t)
          else (false, assocSet pending t (v - 1)) := by rw [tt_ack, hl]
    rw [hack] at hpr
    by_cases hv : v - 1 = 0
    · rw [if_pos hv] at hpr
      exact hpos pr (assocRemove_mem pending t pr hpr)
    · rw [if_neg hv] at hpr
      rcases assocSet_mem pending t _ pr hpr with h | h
      · exact hpos pr h
      · simp [h]
        omega

theorem ttRunFrom_pos (ops : List TTOp) (pending : List (Int × Nat))
    (hpos : ∀ pr ∈ pending, 0 < pr.2) :
    ∀ pr ∈ (ttRunFrom pending ops).2, 0 < pr.2 := by
  induction ops generalizing pending with
  | nil => exact hpos
  | cons op ops ih =>
    cases op with
    | sent t => exact ih _ (tt_sent_pos pending t hpos)
    | ack t => exact ih _ (tt_ack_pos pending t hpos)

/-- C9: every entry of `pending` reachable from the empty tracker is
strictly positive; `sent(t)` returns `true` exactly when the count for
`t` was 0 before the call; on a positive map `ack(t)` returns `true`
exactly when it drains an entry from 1 to 0 (deleting it), and `false`
when `t` is absent or the decremented count is still positive; and
three `sent(5)` calls followed by three `ack(5)` calls return
`true, false, false` then `false, false, true`, leaving the map empty. -/
theorem teleport_tracker_spec :
    (∀ ops : List TTOp, ∀ pr ∈ (ttRun ops).2, 0 < pr.2)
    ∧ (∀ (pending : List (Int × Nat)) (t : Int),
        ((tt_sent pending t).1 = true ↔ (pending.lookup t).getD 0 = 0))
    ∧ (∀ (pending : List (Int × Nat)) (t : Int), (∀ pr ∈ pending, 0 < pr.2) →
        ((tt_ack pending t).1 = true ↔ pending.lookup t = some 1))
    ∧ ttRun [.sent 5, .sent 5, .sent 5, .ack 5, .ack 5, .ack 5]
        = ([true, false, false, false, false, true], []) := by
  refine ⟨?_, ?_, ?_, by decide⟩
  · intro ops
    exact ttRunFrom_pos ops [] (by simp)
  · intro pending t
    simp [tt_sent]
  · intro pending t hpos
    cases hl : pending.lookup t with
    | none =>
      have hack : tt_ack pending t = (false, pending) := by rw [tt_ack, hl]
      simp [hack]
    | some v =>
      have hv1 : 1 ≤ v := hpos (t, v) (lookup_mem pending t v hl)
      have hack : tt_ack pending t
          = if v - 1 = 0 then (true, assocRemove pending t)
            else (false, assocSet pending t (v - 1)) := by rw [tt_ack, hl]
      rw [hack]
      by_cases hv : v - 1 = 0
      · rw [if_pos hv]
        simp
        omega
      · rw [if_neg hv]
        simp
        omega

/-- C9 witness: the tracker theorem applied to a concrete call
sequence, a fresh map, and a one-entry positive map. -/
theorem teleport_tracker_spec_witness :
    (∀ pr ∈ (ttRun [.sent 5, .ack 5]).2, 0 < pr.2)
    ∧ (tt_sent [] 5).1 = true
    ∧ (tt_ack [(5, 1)] 5).1 = true
    ∧ ttRun [.sent 5, .sent 5, .sent 5, .ack 5, .ack 5, .ack 5]
        = ([true, false, false, false, false, true], []) :=
  ⟨teleport_tracker_spec.1 [.sent 5, .ack 5],
   (teleport_tracker_spec.2.1 [] 5).mpr (by decide),
   (teleport_tracker_spec.2.2.1 [(5, 1)] 5 (by decide)).mpr (by decide),
   teleport_tracker_spec.2.2.2⟩

end Terrablade
